import Mathlib

/-!
# Verification of `convert_image_to_ascii.py`

A shallow embedding of the brightness-to-glyph pipeline of
`convert_image_to_ascii.py` (luminance model, shader builder, geometry
resolver, quantizer, renderer, output step), with theorems checking the
natural-language specification against it.

Machine reals are modelled by `ℚ`; Python `int()` truncation by `pyInt`;
Python list indexing (which can raise `IndexError`) by an `Option`-valued
lookup.
-/

namespace ConvertImageToAscii

/-- Python `int(q)` on a rational: truncation toward zero
(floor for nonnegative arguments, ceiling for negative ones). -/
def pyInt (q : ℚ) : ℤ := if 0 ≤ q then ⌊q⌋ else ⌈q⌉

/-- `colour_contrast_rgb` (lines 122-132):
`((red * 299) + (green * 587) + (blue * 114)) / 255000`. -/
def colour_contrast_rgb (red green blue : ℕ) : ℚ :=
  ((red : ℚ) * 299 + (green : ℚ) * 587 + (blue : ℚ) * 114) / 255000

/-- `shader_length = len(shader) - 1` (line 57). -/
def shader_length (shader : List Char) : ℤ := (shader.length : ℤ) - 1

/-- The quantization step at line 104:
`int(colour_contrast_rgb(...) * shader_length)`, taking the already
computed luminance as argument. -/
def quantize (shader : List Char) (lum : ℚ) : ℤ :=
  pyInt (lum * (shader_length shader : ℚ))

/-- Polarity inversion (line 61): `shader = shader[::-1]`. -/
def invert_shader (shader : List Char) : List Char := shader.reverse

/-- Literal mode shader construction (line 56): `shader = list(options.shader)`. -/
def literal_shader (s : String) : List Char := s.toList

/-- Geometry resolver (lines 79-88).  Arguments mirror the source variables
`image_width`, `image_height`, `window_width`, `window_height`,
`options.aspect`; the result is `(new_width, new_height)`.  The source
condition `window_ratio > image_ratio` selects the first branch, and each
fractional dimension goes through Python `int()`. -/
def new_sizes (image_width image_height window_width window_height : ℕ)
    (aspect : ℚ) : ℤ × ℤ :=
  if ((image_width : ℚ) / (image_height : ℚ)) <
      ((window_width : ℚ) / aspect) / (window_height : ℚ) then
    (pyInt (((window_height : ℚ) / (image_height : ℚ)) * (image_width : ℚ) * aspect),
      (window_height : ℤ))
  else
    ((window_width : ℤ),
      pyInt (((window_width : ℚ) / (image_width : ℚ)) * (image_height : ℚ) / aspect))

/-- The matrix construction at lines 99-106: the outer loop runs over
`x in range(new_width)` appending columns, the inner loop over
`y in range(new_height)` appending quantized luminances, so the matrix is
column-major (`image_matrix[x][y]`).  The resized image is abstracted as a
pixel function returning the RGB triple at `(x, y)`. -/
def image_matrix (new_width new_height : ℕ) (pixel : ℕ → ℕ → ℕ × ℕ × ℕ)
    (shader : List Char) : List (List ℤ) :=
  (List.range new_width).map (fun x =>
    (List.range new_height).map (fun y =>
      quantize shader
        (colour_contrast_rgb (pixel x y).1 (pixel x y).2.1 (pixel x y).2.2)))

/-- Python list subscript `l[i]`: negative indices wrap around once;
an out-of-range index raises `IndexError`, modelled as `none`. -/
def pyIndex (l : List Char) (i : ℤ) : Option Char :=
  let j : ℤ := if 0 ≤ i then i else i + (l.length : ℤ)
  if 0 ≤ j then l.get? j.toNat else none

/-- The rendering loop at lines 109-113, total version used where the
spec guarantees every matrix entry is an in-range shader index:
`for y: for x: file_data += shader[image_matrix[x][y]]; file_data += chr(10)`.
Out-of-range reads fall back to defaults (never reached under the claims'
hypotheses; `render?` below models the failing behaviour). -/
def file_data (new_width new_height : ℕ) (m : List (List ℤ))
    (shader : List Char) : List Char :=
  (List.range new_height).foldl (fun acc y =>
    ((List.range new_width).foldl
        (fun acc2 x => acc2 ++ [shader.getD ((m.getD x []).getD y 0).toNat ' ']) acc)
      ++ ['\n']) []

/-- The rendering loop at lines 109-113 with Python indexing semantics:
`none` models an uncaught `IndexError` from `shader[image_matrix[x][y]]`. -/
def renderOpt (new_width new_height : ℕ) (m : List (List ℤ))
    (shader : List Char) : Option (List Char) :=
  (List.range new_height).foldlM (fun acc y =>
    Option.map (fun row => row ++ ['\n'])
      ((List.range new_width).foldlM (fun acc2 x =>
        Option.map (fun c => acc2 ++ [c])
          (pyIndex shader ((m.getD x []).getD y 0))) acc)) []

/-- Line 116: `print(file_data)` writes its argument plus a newline to
standard output. -/
def stdout_text (fd : List Char) : List Char := fd ++ ['\n']

/-- Line 118: `options.out_file.write(file_data)` writes the text verbatim
to the output sink. -/
def out_file_text (fd : List Char) : List Char := fd

/-! ## Helper lemmas -/

theorem foldl_append_singleton {α β : Type} (g : β → α) :
    ∀ (l : List β) (init : List α),
      l.foldl (fun acc y => acc ++ [g y]) init = init ++ l.map g
  | [], init => by simp
  | b :: t, init => by
    simp [List.foldl_cons, foldl_append_singleton g t, List.append_assoc]

theorem foldl_append_flatten {α β : Type} (f : β → List α) :
    ∀ (l : List β) (init : List α),
      l.foldl (fun acc y => acc ++ f y) init = init ++ (l.map f).flatten
  | [], init => by simp
  | b :: t, init => by
    simp [List.foldl_cons, foldl_append_flatten f t, List.append_assoc]

theorem getD_map_range {α : Type} (f : ℕ → α) {w x : ℕ} (hx : x < w) (d : α) :
    ((List.range w).map f).getD x d = f x := by
  simp [List.getD_eq_getElem?_getD, List.getElem?_map, List.getElem?_range, hx]

/-- The renderer equals the flattening of its rows: row `y` is the
left-to-right list of cells `shader[m[x][y]]` followed by a newline, and
the rows are emitted top to bottom. -/
theorem file_data_eq_flatten (w h : ℕ) (m : List (List ℤ)) (shader : List Char) :
    file_data w h m shader =
      ((List.range h).map (fun y =>
        (List.range w).map
            (fun x => shader.getD ((m.getD x []).getD y 0).toNat ' ')
          ++ ['\n'])).flatten := by
  unfold file_data
  simp only [foldl_append_singleton, List.append_assoc]
  simpa using foldl_append_flatten
    (fun y => (List.range w).map
        (fun x => shader.getD ((m.getD x []).getD y 0).toNat ' ')
      ++ ['\n'])
    (List.range h) []

/-- Entry `(x, y)` of the matrix is the quantized luminance of pixel `(x, y)`. -/
theorem image_matrix_entry (w h : ℕ) (pixel : ℕ → ℕ → ℕ × ℕ × ℕ)
    (shader : List Char) {x y : ℕ} (hx : x < w) (hy : y < h) :
    ((image_matrix w h pixel shader).getD x []).getD y 0
      = quantize shader
          (colour_contrast_rgb (pixel x y).1 (pixel x y).2.1 (pixel x y).2.2) := by
  unfold image_matrix
  rw [getD_map_range _ hx, getD_map_range _ hy]

/-- If every in-range matrix entry is `0`, the rendered text is `h` rows of
the shader's first character repeated `w` times, each newline-terminated. -/
theorem file_data_const_zero (w h : ℕ) (m : List (List ℤ)) (shader : List Char)
    (hzero : ∀ x < w, ∀ y < h, (m.getD x []).getD y 0 = 0) :
    file_data w h m shader =
      ((List.range h).map
        (fun _ => List.replicate w (shader.getD 0 ' ') ++ ['\n'])).flatten := by
  rw [file_data_eq_flatten]
  congr 1
  refine List.map_congr_left (fun y hy => ?_)
  rw [List.mem_range] at hy
  congr 1
  refine List.eq_replicate_iff.mpr ⟨by simp, fun c hc => ?_⟩
  rw [List.mem_map] at hc
  obtain ⟨x, hx, rfl⟩ := hc
  rw [List.mem_range] at hx
  rw [hzero x hx y hy]
  rfl

theorem colour_contrast_rgb_nonneg (r g b : ℕ) : 0 ≤ colour_contrast_rgb r g b := by
  unfold colour_contrast_rgb
  positivity

theorem colour_contrast_rgb_le_one (r g b : ℕ)
    (hr : r ≤ 255) (hg : g ≤ 255) (hb : b ≤ 255) : colour_contrast_rgb r g b ≤ 1 := by
  have hr' : (r : ℚ) ≤ 255 := by exact_mod_cast hr
  have hg' : (g : ℚ) ≤ 255 := by exact_mod_cast hg
  have hb' : (b : ℚ) ≤ 255 := by exact_mod_cast hb
  unfold colour_contrast_rgb
  rw [div_le_one (by norm_num)]
  nlinarith

/-- A nonnegative in-range index reads successfully through Python
indexing, returning the same character as the defaulted read. -/
theorem pyIndex_in_range (l : List Char) (i : ℤ)
    (h0 : 0 ≤ i) (hlt : i.toNat < l.length) :
    pyIndex l i = some (l.getD i.toNat ' ') := by
  simp [pyIndex, h0, List.getD_eq_getElem?_getD, List.get?_eq_getElem?,
    List.getElem?_eq_getElem hlt]

theorem foldlM_option_cells (shader : List Char) (row : ℕ → ℤ) (f : ℕ → Char) :
    ∀ (l : List ℕ) (init : List Char),
      (∀ x ∈ l, pyIndex shader (row x) = some (f x)) →
      ((l.foldlM (fun acc2 x =>
          Option.map (fun c => acc2 ++ [c]) (pyIndex shader (row x))) init)
          : Option (List Char))
        = some (init ++ l.map f)
  | [], init, _ => by simp
  | x :: t, init, hok => by
    rw [List.foldlM_cons, hok x (List.mem_cons_self x t)]
    simp only [Option.map_some', Option.bind_eq_bind, Option.some_bind]
    rw [foldlM_option_cells shader row f t (init ++ [f x])
      (fun z hz => hok z (List.mem_cons_of_mem x hz))]
    simp

theorem foldlM_option_rows {β : Type} (F : List Char → β → Option (List Char))
    (rows : β → List Char) :
    ∀ (l : List β) (init : List Char),
      (∀ y ∈ l, ∀ acc, F acc y = some (acc ++ rows y)) →
      (l.foldlM F init : Option (List Char))
        = some (init ++ (l.map rows).flatten)
  | [], init, _ => by simp
  | y :: t, init, hok => by
    rw [List.foldlM_cons, hok y (List.mem_cons_self y t)]
    simp only [Option.bind_eq_bind, Option.some_bind]
    rw [foldlM_option_rows F rows t (init ++ rows y)
      (fun z hz acc => hok z (List.mem_cons_of_mem y hz) acc)]
    simp

/-- When every matrix entry read by the renderer is an in-range shader
index, the failing renderer succeeds and agrees with the total one. -/
theorem renderOpt_eq_file_data (w h : ℕ) (m : List (List ℤ)) (shader : List Char)
    (hok : ∀ x < w, ∀ y < h, 0 ≤ (m.getD x []).getD y 0
        ∧ ((m.getD x []).getD y 0).toNat < shader.length) :
    renderOpt w h m shader = some (file_data w h m shader) := by
  have hcell : ∀ y < h, ∀ x ∈ List.range w,
      pyIndex shader ((m.getD x []).getD y 0)
        = some (shader.getD ((m.getD x []).getD y 0).toNat ' ') := by
    intro y hy x hx
    rw [List.mem_range] at hx
    exact pyIndex_in_range shader _ (hok x hx y hy).1 (hok x hx y hy).2
  unfold renderOpt
  rw [foldlM_option_rows _
    (fun y => (List.range w).map
        (fun x => shader.getD ((m.getD x []).getD y 0).toNat ' ') ++ ['\n'])
    (List.range h) []
    (fun y hy acc => by
      rw [List.mem_range] at hy
      rw [foldlM_option_cells shader _
        (fun x => shader.getD ((m.getD x []).getD y 0).toNat ' ')
        (List.range w) acc (hcell y hy)]
      simp)]
  rw [file_data_eq_flatten]
  simp

/-- With a single-character shader the quantized index is always `0`
(the multiplier `shader_length = 0`), every lookup succeeds, and the
render is that character at every cell: no error of any kind occurs. -/
theorem renderOpt_singleton (c : Char) (w h : ℕ) (pixel : ℕ → ℕ → ℕ × ℕ × ℕ) :
    renderOpt w h (image_matrix w h pixel [c]) [c]
      = some (((List.range h).map
          (fun _ => List.replicate w c ++ ['\n'])).flatten) := by
  have hzero : ∀ x < w, ∀ y < h,
      ((image_matrix w h pixel [c]).getD x []).getD y 0 = 0 := by
    intro x hx y hy
    rw [image_matrix_entry w h pixel [c] hx hy]
    norm_num [quantize, shader_length, pyInt]
  rw [renderOpt_eq_file_data w h _ [c] (fun x hx y hy => by
    rw [hzero x hx y hy]
    exact ⟨le_refl 0, by simp⟩)]
  rw [file_data_const_zero w h _ [c] hzero]
  rfl

/-! ## Theorems for the scalar components -/

/-- **C3**: the luminance function returns exactly
`(0.299*R + 0.587*G + 0.114*B) / 255`, which lies in `[0, 1]`;
white maps to `1`, black to `0`, and yellow is brighter than blue. -/
theorem colour_contrast_rgb_spec (r g b : ℕ)
    (hr : r ≤ 255) (hg : g ≤ 255) (hb : b ≤ 255) :
    colour_contrast_rgb r g b
        = ((299 / 1000) * (r : ℚ) + (587 / 1000) * (g : ℚ)
            + (114 / 1000) * (b : ℚ)) / 255
      ∧ 0 ≤ colour_contrast_rgb r g b
      ∧ colour_contrast_rgb r g b ≤ 1
      ∧ colour_contrast_rgb 255 255 255 = 1
      ∧ colour_contrast_rgb 0 0 0 = 0
      ∧ colour_contrast_rgb 0 0 255 < colour_contrast_rgb 255 255 0 := by
  have hr' : (r : ℚ) ≤ 255 := by exact_mod_cast hr
  have hg' : (g : ℚ) ≤ 255 := by exact_mod_cast hg
  have hb' : (b : ℚ) ≤ 255 := by exact_mod_cast hb
  have hr0 : (0 : ℚ) ≤ (r : ℚ) := Nat.cast_nonneg r
  have hg0 : (0 : ℚ) ≤ (g : ℚ) := Nat.cast_nonneg g
  have hb0 : (0 : ℚ) ≤ (b : ℚ) := Nat.cast_nonneg b
  refine ⟨?_, ?_, ?_, ?_, ?_, ?_⟩
  · unfold colour_contrast_rgb
    field_simp
    ring
  · unfold colour_contrast_rgb
    positivity
  · unfold colour_contrast_rgb
    rw [div_le_one (by norm_num)]
    nlinarith
  · norm_num [colour_contrast_rgb]
  · norm_num [colour_contrast_rgb]
  · norm_num [colour_contrast_rgb]

/-- Witness for `colour_contrast_rgb_spec` at `(10, 20, 30)`. -/
theorem colour_contrast_rgb_spec_witness :
    colour_contrast_rgb 10 20 30
        = ((299 / 1000) * ((10 : ℕ) : ℚ) + (587 / 1000) * ((20 : ℕ) : ℚ)
            + (114 / 1000) * ((30 : ℕ) : ℚ)) / 255
      ∧ 0 ≤ colour_contrast_rgb 10 20 30
      ∧ colour_contrast_rgb 10 20 30 ≤ 1
      ∧ colour_contrast_rgb 255 255 255 = 1
      ∧ colour_contrast_rgb 0 0 0 = 0
      ∧ colour_contrast_rgb 0 0 255 < colour_contrast_rgb 255 255 0 :=
  colour_contrast_rgb_spec 10 20 30 (by norm_num) (by norm_num) (by norm_num)

/-- **C1**: for a shader of length `N ≥ 1` and luminance `v ∈ [0, 1]`, the
quantizer computes `⌊v * (N - 1)⌋`; for `N = 4` the luminances `0`,
`0.999` and `1` map to indices `0`, `2` and `3`. -/
theorem quantize_floor (shader : List Char) (v : ℚ)
    (hN : 1 ≤ shader.length) (h0 : 0 ≤ v) (h1 : v ≤ 1) :
    quantize shader v = ⌊v * ((shader.length : ℚ) - 1)⌋
      ∧ (shader.length = 4 →
          quantize shader 0 = 0
            ∧ quantize shader (999 / 1000) = 2
            ∧ quantize shader 1 = 3) := by
  constructor
  · have hlen : ((shader_length shader : ℤ) : ℚ) = (shader.length : ℚ) - 1 := by
      unfold shader_length
      push_cast
      ring
    have hN' : (0 : ℚ) ≤ (shader.length : ℚ) - 1 := by
      have : (1 : ℚ) ≤ (shader.length : ℚ) := by exact_mod_cast hN
      linarith
    have hnn : 0 ≤ v * ((shader_length shader : ℤ) : ℚ) := by
      rw [hlen]
      exact mul_nonneg h0 hN'
    unfold quantize pyInt
    rw [if_pos hnn, hlen]
  · intro h4
    refine ⟨?_, ?_, ?_⟩ <;>
      simp only [quantize, shader_length, pyInt, h4] <;> push_cast <;> norm_num

/-- Witness for `quantize_floor`: shader of length 4, luminance `1/2`. -/
theorem quantize_floor_witness :
    quantize [' ', '.', ':', '@'] (1 / 2)
        = ⌊(1 / 2 : ℚ) * ((([' ', '.', ':', '@'] : List Char).length : ℚ) - 1)⌋
      ∧ (([' ', '.', ':', '@'] : List Char).length = 4 →
          quantize [' ', '.', ':', '@'] 0 = 0
            ∧ quantize [' ', '.', ':', '@'] (999 / 1000) = 2
            ∧ quantize [' ', '.', ':', '@'] 1 = 3) :=
  quantize_floor [' ', '.', ':', '@'] (1 / 2)
    (by norm_num) (by norm_num) (by norm_num)

/-- **C6**: polarity inversion is exact sequence reversal, an involution,
and preserves length. -/
theorem invert_shader_spec :
    (∀ a b c : Char, invert_shader [a, b, c] = [c, b, a])
      ∧ (∀ s : List Char, invert_shader (invert_shader s) = s)
      ∧ ∀ s : List Char, (invert_shader s).length = s.length :=
  ⟨fun _ _ _ => rfl,
    fun s => List.reverse_reverse s,
    fun s => List.length_reverse s⟩

/-- **C7**: in literal mode the shader is exactly the input string's
characters in order; `"ab"` yields `['a', 'b']`. -/
theorem literal_shader_spec :
    (∀ s : String, literal_shader s = s.data)
      ∧ literal_shader "ab" = ['a', 'b'] :=
  ⟨fun _ => rfl, rfl⟩

/-- **C2, counterexample**: with a 100×50 image, an 80×24 display and
aspect `2.4`, the code computes `new_height = int(16.666...) = 16`,
not the claimed `round(16.666...) = 17`. -/
theorem new_sizes_counterexample :
    new_sizes 100 50 80 24 (12 / 5) = (80, 16) ∧ (16 : ℤ) ≠ 17 := by
  constructor
  · unfold new_sizes pyInt
    norm_num
  · norm_num

/-- **C2, amended**: the geometry resolver truncates (Python `int`) the
fractional dimension rather than rounding it: if
`(Wd/a)/Hd > Wi/Hi` then `(Wt, Ht) = (⌊(Hd/Hi)*Wi*a⌋, Hd)`, otherwise
`(Wt, Ht) = (Wd, ⌊(Wd/Wi)*Hi/a⌋)`; the 100×50 / 80×24 / 2.4 example
yields `Wt = 80`, `Ht = 16`. -/
theorem new_sizes_truncates (image_width image_height window_width window_height : ℕ)
    (aspect : ℚ) (ha : 0 < aspect) :
    new_sizes image_width image_height window_width window_height aspect
        = (if ((image_width : ℚ) / (image_height : ℚ)) <
              ((window_width : ℚ) / aspect) / (window_height : ℚ) then
            (⌊((window_height : ℚ) / (image_height : ℚ)) * (image_width : ℚ) * aspect⌋,
              (window_height : ℤ))
          else
            ((window_width : ℤ),
              ⌊((window_width : ℚ) / (image_width : ℚ)) * (image_height : ℚ) / aspect⌋))
      ∧ new_sizes 100 50 80 24 (12 / 5) = (80, 16) := by
  constructor
  · unfold new_sizes pyInt
    have h1 : 0 ≤ ((window_height : ℚ) / (image_height : ℚ))
        * (image_width : ℚ) * aspect := by positivity
    have h2 : 0 ≤ ((window_width : ℚ) / (image_width : ℚ))
        * (image_height : ℚ) / aspect := by positivity
    split_ifs <;> simp [h1, h2]
  · unfold new_sizes pyInt
    norm_num

/-- Witness for `new_sizes_truncates` at the spec's own example. -/
theorem new_sizes_truncates_witness :
    new_sizes 100 50 80 24 (12 / 5)
        = (if (((100 : ℕ) : ℚ) / ((50 : ℕ) : ℚ)) <
              (((80 : ℕ) : ℚ) / (12 / 5)) / (((24 : ℕ) : ℚ)) then
            (⌊(((24 : ℕ) : ℚ) / ((50 : ℕ) : ℚ)) * ((100 : ℕ) : ℚ) * (12 / 5)⌋,
              ((24 : ℕ) : ℤ))
          else
            (((80 : ℕ) : ℤ),
              ⌊(((80 : ℕ) : ℚ) / ((100 : ℕ) : ℚ)) * ((50 : ℕ) : ℚ) / (12 / 5)⌋))
      ∧ new_sizes 100 50 80 24 (12 / 5) = (80, 16) :=
  new_sizes_truncates 100 50 80 24 (12 / 5) (by norm_num)

/-- **C5**: given a `Wt×Ht` matrix of valid shader indices, the renderer
emits exactly `Ht` newline-terminated rows of `Wt` cells each, rows top to
bottom and cells left to right, each cell being `shader[entry]`; its total
length is `Ht * (Wt + 1)`; and the matrix of a uniformly black image
renders as the shader's first character at every cell. -/
theorem renderer_spec (w h : ℕ) (m : List (List ℤ)) (shader : List Char)
    (hw : m.length = w) (hcol : ∀ col ∈ m, col.length = h)
    (hval : ∀ col ∈ m, ∀ e ∈ col, 0 ≤ e ∧ e.toNat < shader.length)
    (hsh : shader ≠ []) :
    file_data w h m shader =
        ((List.range h).map (fun y =>
          (List.range w).map
              (fun x => shader.getD ((m.getD x []).getD y 0).toNat ' ')
            ++ ['\n'])).flatten
      ∧ (file_data w h m shader).length = h * (w + 1)
      ∧ file_data w h (image_matrix w h (fun _ _ => (0, 0, 0)) shader) shader =
          ((List.range h).map
            (fun _ => List.replicate w (shader.getD 0 ' ') ++ ['\n'])).flatten := by
  refine ⟨file_data_eq_flatten w h m shader, ?_, ?_⟩
  · rw [file_data_eq_flatten]
    rw [List.length_flatten, List.map_map]
    have hconst : (List.length ∘ fun y =>
        (List.range w).map
            (fun x => shader.getD ((m.getD x []).getD y 0).toNat ' ')
          ++ ['\n'])
        = fun _ : ℕ => w + 1 := by
      funext y
      simp
    rw [hconst]
    simp [List.map_const', List.sum_replicate, smul_eq_mul]
  · refine file_data_const_zero w h _ shader (fun x hx y hy => ?_)
    rw [image_matrix_entry w h _ shader hx hy]
    norm_num [quantize, colour_contrast_rgb, pyInt]

/-- Witness for `renderer_spec`: a `1×1` matrix `[[0]]` with shader
`['a', 'b']`. -/
theorem renderer_spec_witness :
    file_data 1 1 [[0]] ['a', 'b'] =
        ((List.range 1).map (fun y =>
          (List.range 1).map
              (fun x => (['a', 'b'] : List Char).getD
                ((([[0]] : List (List ℤ)).getD x []).getD y 0).toNat ' ')
            ++ ['\n'])).flatten
      ∧ (file_data 1 1 [[0]] ['a', 'b']).length = 1 * (1 + 1)
      ∧ file_data 1 1 (image_matrix 1 1 (fun _ _ => (0, 0, 0)) ['a', 'b']) ['a', 'b'] =
          ((List.range 1).map
            (fun _ => List.replicate 1 ((['a', 'b'] : List Char).getD 0 ' ')
              ++ ['\n'])).flatten :=
  renderer_spec 1 1 [[0]] ['a', 'b'] (by decide)
    (by intro col hcol; simp at hcol; simp [hcol])
    (by intro col hcol e he; simp at hcol; subst hcol; simp at he; simp [he])
    (by decide)

/-- **C8**: for a shader of length at least 1 and channel values in
`[0, 255]`, the quantized matrix entry is nonnegative and below the shader
length, so indexing the shader with it always succeeds. -/
theorem quantize_safe (shader : List Char) (r g b : ℕ)
    (hN : 1 ≤ shader.length) (hr : r ≤ 255) (hg : g ≤ 255) (hb : b ≤ 255) :
    0 ≤ quantize shader (colour_contrast_rgb r g b)
      ∧ (quantize shader (colour_contrast_rgb r g b)).toNat < shader.length
      ∧ ∃ c, pyIndex shader (quantize shader (colour_contrast_rgb r g b))
          = some c := by
  have h0 : 0 ≤ colour_contrast_rgb r g b := colour_contrast_rgb_nonneg r g b
  have h1 : colour_contrast_rgb r g b ≤ 1 := colour_contrast_rgb_le_one r g b hr hg hb
  have hlen : ((shader_length shader : ℤ) : ℚ) = (shader.length : ℚ) - 1 := by
    unfold shader_length
    push_cast
    ring
  have hN' : (0 : ℚ) ≤ (shader.length : ℚ) - 1 := by
    have : (1 : ℚ) ≤ (shader.length : ℚ) := by exact_mod_cast hN
    linarith
  have hprod0 : 0 ≤ colour_contrast_rgb r g b * ((shader_length shader : ℤ) : ℚ) := by
    rw [hlen]
    exact mul_nonneg h0 hN'
  have hq : quantize shader (colour_contrast_rgb r g b)
      = ⌊colour_contrast_rgb r g b * ((shader_length shader : ℤ) : ℚ)⌋ := by
    unfold quantize pyInt
    rw [if_pos hprod0]
  have hge : 0 ≤ quantize shader (colour_contrast_rgb r g b) := by
    rw [hq]
    exact Int.floor_nonneg.mpr hprod0
  have hle : quantize shader (colour_contrast_rgb r g b) ≤ (shader.length : ℤ) - 1 := by
    rw [hq]
    have hub : colour_contrast_rgb r g b * ((shader_length shader : ℤ) : ℚ)
        ≤ (((shader.length : ℤ) - 1 : ℤ) : ℚ) := by
      rw [hlen]
      have := mul_le_of_le_one_left hN' h1
      push_cast
      linarith
    calc ⌊colour_contrast_rgb r g b * ((shader_length shader : ℤ) : ℚ)⌋
        ≤ ⌊(((shader.length : ℤ) - 1 : ℤ) : ℚ)⌋ := Int.floor_le_floor hub
      _ = (shader.length : ℤ) - 1 := Int.floor_intCast _
  have hlt : (quantize shader (colour_contrast_rgb r g b)).toNat < shader.length := by
    omega
  exact ⟨hge, hlt, ⟨shader.getD (quantize shader (colour_contrast_rgb r g b)).toNat ' ',
    pyIndex_in_range shader _ hge hlt⟩⟩

/-- Witness for `quantize_safe`: default-size shader stand-in of length 2
at mid grey. -/
theorem quantize_safe_witness :
    0 ≤ quantize ['a', 'b'] (colour_contrast_rgb 100 150 200)
      ∧ (quantize ['a', 'b'] (colour_contrast_rgb 100 150 200)).toNat
          < (['a', 'b'] : List Char).length
      ∧ ∃ c, pyIndex ['a', 'b'] (quantize ['a', 'b'] (colour_contrast_rgb 100 150 200))
          = some c :=
  quantize_safe ['a', 'b'] 100 150 200 (by decide)
    (by norm_num) (by norm_num) (by norm_num)

/-- **C9, counterexample**: a shader of length 1 (< 2) triggers no
`ConfigurationError` and no failure at all: on a 1×1 black image the
program renders successfully, producing the single character and a
newline.  The code has no shader-length validation. -/
theorem shader_short_no_error :
    (['x'] : List Char).length < 2
      ∧ renderOpt 1 1 (image_matrix 1 1 (fun _ _ => (0, 0, 0)) ['x']) ['x']
          = some ['x', '\n'] := by
  refine ⟨by decide, ?_⟩
  rw [renderOpt_singleton 'x' 1 1 (fun _ _ => (0, 0, 0))]
  rfl

/-- **C9, amended**: the program performs no shader-length validation.
With a shader of length 1 the quantizer always yields index 0 and the run
completes normally, rendering that single character at every cell of every
row, so no error is raised and output is produced; with an empty shader
the run instead dies with an uncaught out-of-range indexing error during
rendering (here on a 1×1 black image), not a `ConfigurationError`. -/
theorem shader_singleton_renders (c : Char) (w h : ℕ)
    (pixel : ℕ → ℕ → ℕ × ℕ × ℕ) :
    renderOpt w h (image_matrix w h pixel [c]) [c]
        = some (((List.range h).map
            (fun _ => List.replicate w c ++ ['\n'])).flatten)
      ∧ renderOpt 1 1 (image_matrix 1 1 (fun _ _ => (0, 0, 0)) []) [] = none := by
  refine ⟨renderOpt_singleton c w h pixel, ?_⟩
  have hm : ((image_matrix 1 1 (fun _ _ => (0, 0, 0)) []).getD 0 []).getD 0 0 = 0 := by
    rw [image_matrix_entry 1 1 _ [] (by norm_num) (by norm_num)]
    norm_num [quantize, shader_length, pyInt, colour_contrast_rgb]
  unfold renderOpt
  have hrange : List.range 1 = [0] := by simp [List.range_succ]
  simp only [hrange, List.foldlM_cons, List.foldlM_nil, hm]
  simp [pyIndex]

/-- **C10**: the output sink receives exactly the rendered text (the `Ht`
newline-terminated rows), while standard output receives the same text
followed by one extra newline appended by `print`; they differ by exactly
that final newline. -/
theorem output_spec (w h : ℕ) (m : List (List ℤ)) (shader : List Char) :
    out_file_text (file_data w h m shader) = file_data w h m shader
      ∧ stdout_text (file_data w h m shader)
          = out_file_text (file_data w h m shader) ++ ['\n']
      ∧ out_file_text (file_data w h m shader)
          = ((List.range h).map (fun y =>
              (List.range w).map
                  (fun x => shader.getD ((m.getD x []).getD y 0).toNat ' ')
                ++ ['\n'])).flatten :=
  ⟨rfl, rfl, file_data_eq_flatten w h m shader⟩

/-! ## Measured-mode shader builder (lines 49-54) -/

/-- Python `min(character_values, key=character_values.get)` (line 52):
a left fold over the bindings that keeps the earliest binding whose score
is minimal (a later binding replaces the current one only when its score
is strictly smaller). -/
def py_min : Char × ℚ → List (Char × ℚ) → Char × ℚ
  | m, [] => m
  | m, p :: ps => py_min (if p.2 < m.2 then p else m) ps

/-- `del character_values[key]` (line 54): remove the binding of `key`
(a dict holds at most one; the model removes the first). -/
def del_key (key : Char) : List (Char × ℚ) → List (Char × ℚ)
  | [] => []
  | p :: ps => if p.1 = key then ps else p :: del_key key ps

/-- The `while len(character_values) > 0` loop (lines 50-54), with the
number of remaining bindings as fuel: extract the minimum, append its
key to the shader, delete it, repeat. -/
def sort_loop : ℕ → List (Char × ℚ) → List Char
  | 0, _ => []
  | _, [] => []
  | n + 1, p :: ps =>
    (py_min p ps).1 :: sort_loop n (del_key (py_min p ps).1 (p :: ps))

/-- The measured-mode shader: the loop run on the glyph-brightness
bindings in their original iteration order. -/
def build_shader_measured (d : List (Char × ℚ)) : List Char :=
  sort_loop d.length d

/-- The specification's replacement: a stable sort of the
(character, score) pairs by score. -/
def stable_sort_pairs (d : List (Char × ℚ)) : List (Char × ℚ) :=
  d.insertionSort (fun a b => a.2 ≤ b.2)

theorem py_min_mem : ∀ (ps : List (Char × ℚ)) (m : Char × ℚ),
    py_min m ps ∈ m :: ps
  | [], m => by simp [py_min]
  | p :: ps, m => by
    rw [show py_min m (p :: ps) = py_min (if p.2 < m.2 then p else m) ps from rfl]
    have h := py_min_mem ps (if p.2 < m.2 then p else m)
    rcases List.mem_cons.mp h with h1 | h2
    · rw [h1]
      split_ifs <;> simp
    · simp [h2]

theorem py_min_le : ∀ (ps : List (Char × ℚ)) (m : Char × ℚ),
    ∀ c ∈ m :: ps, (py_min m ps).2 ≤ c.2
  | [], m, c, hc => by
    rw [List.mem_singleton] at hc
    rw [hc]
    simp [py_min]
  | p :: ps, m, c, hc => by
    rw [show py_min m (p :: ps) = py_min (if p.2 < m.2 then p else m) ps from rfl]
    have hhead := py_min_le ps (if p.2 < m.2 then p else m)
      (if p.2 < m.2 then p else m) (List.mem_cons_self _ _)
    rcases List.mem_cons.mp hc with h1 | h2
    · rw [h1]
      refine le_trans hhead ?_
      split_ifs with hp
      · exact le_of_lt hp
      · exact le_refl m.2
    · rcases List.mem_cons.mp h2 with hp | hps
      · rw [hp]
        refine le_trans hhead ?_
        split_ifs with hcond
        · exact le_refl p.2
        · exact not_lt.mp hcond
      · exact py_min_le ps (if p.2 < m.2 then p else m) c
          (List.mem_cons_of_mem _ hps)

/-- The list splits around the extracted minimum, and every binding
strictly before it has strictly greater score (Python `min` keeps the
first binding achieving the minimum). -/
theorem py_min_decomp : ∀ (ps : List (Char × ℚ)) (m : Char × ℚ),
    ∃ l1 l2, m :: ps = l1 ++ py_min m ps :: l2
      ∧ ∀ c ∈ l1, (py_min m ps).2 < c.2
  | [], m => ⟨[], [], by simp [py_min], by simp⟩
  | p :: ps, m => by
    by_cases hp : p.2 < m.2
    · have hrw : py_min m (p :: ps) = py_min p ps := by
        rw [show py_min m (p :: ps) = py_min (if p.2 < m.2 then p else m) ps from rfl,
          if_pos hp]
      obtain ⟨l1, l2, heq, hlt⟩ := py_min_decomp ps p
      refine ⟨m :: l1, l2, ?_, ?_⟩
      · rw [hrw, List.cons_append, ← heq]
      · intro c hc
        rw [hrw]
        rcases List.mem_cons.mp hc with h1 | h2
        · rw [h1]
          exact lt_of_le_of_lt (py_min_le ps p p (List.mem_cons_self p ps)) hp
        · exact hlt c h2
    · have hrw : py_min m (p :: ps) = py_min m ps := by
        rw [show py_min m (p :: ps) = py_min (if p.2 < m.2 then p else m) ps from rfl,
          if_neg hp]
      obtain ⟨l1, l2, heq, hlt⟩ := py_min_decomp ps m
      cases l1 with
      | nil =>
        rw [List.nil_append] at heq
        have h1 : m = py_min m ps := (List.cons.injEq _ _ _ _).mp heq |>.1
        exact ⟨[], p :: ps, by rw [List.nil_append, hrw, ← h1], by simp⟩
      | cons q l1' =>
        rw [List.cons_append] at heq
        have h1 : q = m := ((List.cons.injEq _ _ _ _).mp heq).1.symm
        have h2 : ps = l1' ++ py_min m ps :: l2 := ((List.cons.injEq _ _ _ _).mp heq).2
        have hm : (py_min m ps).2 < m.2 := by
          have := hlt q (List.mem_cons_self q l1')
          rw [h1] at this
          exact this
        refine ⟨m :: p :: l1', l2, ?_, ?_⟩
        · rw [hrw, List.cons_append, List.cons_append, ← h2]
        · intro c hc
          rw [hrw]
          rcases List.mem_cons.mp hc with hcm | hc2
          · rw [hcm]
            exact hm
          · rcases List.mem_cons.mp hc2 with hcp | hcl
            · rw [hcp]
              exact lt_of_lt_of_le hm (not_lt.mp hp)
            · exact hlt c (List.mem_cons_of_mem q hcl)

theorem del_key_append : ∀ (l1 : List (Char × ℚ)) (r : Char × ℚ)
    (l2 : List (Char × ℚ)), r.1 ∉ l1.map Prod.fst →
    del_key r.1 (l1 ++ r :: l2) = l1 ++ l2
  | [], r, l2, _ => by simp [del_key]
  | q :: l1, r, l2, h => by
    rw [List.mem_map] at h
    push_neg at h
    have hq : ¬ (q.1 = r.1) := fun he => h q (List.mem_cons_self q l1) he
    rw [List.cons_append]
    rw [show del_key r.1 (q :: (l1 ++ r :: l2))
        = if q.1 = r.1 then l1 ++ r :: l2 else q :: del_key r.1 (l1 ++ r :: l2)
      from rfl, if_neg hq]
    rw [del_key_append l1 r l2 (by
      rw [List.mem_map]
      push_neg
      exact fun p hp => h p (List.mem_cons_of_mem q hp)), List.cons_append]

/-- Inserting around a strict-then-weak minimum: a stable sort of
`l1 ++ r :: l2` where `r` is weakly minimal overall and strictly below
everything before it starts with `r`. -/
theorem stable_sort_cons (a : Char × ℚ) (l : List (Char × ℚ)) :
    stable_sort_pairs (a :: l) =
      List.orderedInsert (fun a b : Char × ℚ => a.2 ≤ b.2) a
        (stable_sort_pairs l) := rfl

theorem stable_sort_min_cons : ∀ (l1 : List (Char × ℚ)) (r : Char × ℚ)
    (l2 : List (Char × ℚ)),
    (∀ c ∈ l1, r.2 < c.2) → (∀ c ∈ l1 ++ r :: l2, r.2 ≤ c.2) →
    stable_sort_pairs (l1 ++ r :: l2) = r :: stable_sort_pairs (l1 ++ l2)
  | [], r, l2, _, hle => by
    rw [List.nil_append, List.nil_append, stable_sort_cons]
    cases hs : stable_sort_pairs l2 with
    | nil => simp [List.orderedInsert]
    | cons hd tl =>
      have hhd : hd ∈ l2 := by
        have hmem : hd ∈ stable_sort_pairs l2 := by
          rw [hs]
          exact List.mem_cons_self hd tl
        exact (List.mem_insertionSort _).mp hmem
      have hr : r.2 ≤ hd.2 := hle hd (by
        rw [List.nil_append]
        exact List.mem_cons_of_mem r hhd)
      simp [List.orderedInsert, hr]
  | q :: l1, r, l2, hlt, hle => by
    have hlt' : ∀ c ∈ l1, r.2 < c.2 :=
      fun c hc => hlt c (List.mem_cons_of_mem q hc)
    have hle' : ∀ c ∈ l1 ++ r :: l2, r.2 ≤ c.2 :=
      fun c hc => hle c (by
        rw [List.cons_append]
        exact List.mem_cons_of_mem q hc)
    have hqr : ¬ ((q.2 : ℚ) ≤ r.2) := not_le.mpr (hlt q (List.mem_cons_self q l1))
    rw [List.cons_append, List.cons_append, stable_sort_cons, stable_sort_cons,
      stable_sort_min_cons l1 r l2 hlt' hle']
    simp [List.orderedInsert, hqr]

/-- The extract-minimum loop agrees with the stable sort, binding by
binding. -/
theorem sort_loop_eq : ∀ (n : ℕ) (d : List (Char × ℚ)), d.length = n →
    (d.map Prod.fst).Nodup →
    sort_loop n d = (stable_sort_pairs d).map Prod.fst
  | 0, d, hlen, _ => by
    rw [List.length_eq_zero] at hlen
    subst hlen
    rfl
  | n + 1, d, hlen, hnd => by
    cases d with
    | nil => simp at hlen
    | cons p ps =>
      obtain ⟨l1, l2, heq, hlt⟩ := py_min_decomp ps p
      have hle' : ∀ c ∈ l1 ++ py_min p ps :: l2, (py_min p ps).2 ≤ c.2 :=
        fun c hc => py_min_le ps p c (by rw [heq]; exact hc)
      have hnotin : (py_min p ps).1 ∉ l1.map Prod.fst := by
        intro hmem
        have hnd2 : (l1.map Prod.fst
            ++ (py_min p ps).1 :: l2.map Prod.fst).Nodup := by
          have : ((l1 ++ py_min p ps :: l2).map Prod.fst).Nodup := by
            rw [← heq]
            exact hnd
          simpa using this
        exact (List.disjoint_of_nodup_append hnd2) hmem
          (List.mem_cons_self _ _)
      have hdel : del_key (py_min p ps).1 (p :: ps) = l1 ++ l2 := by
        rw [heq]
        exact del_key_append l1 (py_min p ps) l2 hnotin
      have hlen' : (l1 ++ l2).length = n := by
        have h1 : (l1 ++ py_min p ps :: l2).length = n + 1 := by
          rw [← heq]
          exact hlen
        simp [List.length_append] at h1 ⊢
        omega
      have hnd' : ((l1 ++ l2).map Prod.fst).Nodup := by
        have hsub : List.Sublist (l1 ++ l2) (l1 ++ py_min p ps :: l2) :=
          List.Sublist.append_left (List.sublist_cons_self _ _) l1
        exact List.Nodup.sublist (hsub.map Prod.fst) (by rw [← heq]; exact hnd)
      simp only [sort_loop]
      rw [hdel, sort_loop_eq n (l1 ++ l2) hlen' hnd', heq,
        stable_sort_min_cons l1 (py_min p ps) l2 hlt hle']
      simp

/-- In a `Pairwise`-ordered list, of two distinct members not related
backwards, the first precedes the second. -/
theorem pairwise_pair_sublist {α : Type} {R : α → α → Prop} :
    ∀ {l : List α} {x y : α}, l.Pairwise R → x ∈ l → y ∈ l → x ≠ y →
      ¬ R y x → List.Sublist [x, y] l
  | [], x, _, _, hx, _, _, _ => absurd hx (List.not_mem_nil x)
  | z :: t, x, y, hp, hx, hy, hne, hnR => by
    rw [List.pairwise_cons] at hp
    rcases List.mem_cons.mp hx with hxz | hxt
    · subst hxz
      rcases List.mem_cons.mp hy with hyz | hyt
      · exact absurd hyz.symm hne
      · exact List.Sublist.cons₂ x (List.singleton_sublist.mpr hyt)
    · rcases List.mem_cons.mp hy with hyz | hyt
      · subst hyz
        exact absurd (hp.1 x hxt) hnR
      · exact List.Sublist.cons z (pairwise_pair_sublist hp.2 hxt hyt hne hnR)

/-- **C4**: the repeated extract-minimum-and-delete loop over the
glyph-brightness map equals a stable sort of the (character, score) pairs
by score (ascending, ties broken by original iteration order); in
particular a character with strictly smaller score precedes one with a
strictly larger score in the resulting shader. -/
theorem measured_mode_stable (d : List (Char × ℚ))
    (hnd : (d.map Prod.fst).Nodup) :
    build_shader_measured d = (stable_sort_pairs d).map Prod.fst
      ∧ ∀ a b : Char × ℚ, a ∈ d → b ∈ d → a.2 < b.2 →
          List.Sublist [a.1, b.1] (build_shader_measured d) := by
  have hmain : build_shader_measured d = (stable_sort_pairs d).map Prod.fst :=
    sort_loop_eq d.length d rfl hnd
  refine ⟨hmain, fun a b ha hb hab => ?_⟩
  rw [hmain]
  haveI : IsTotal (Char × ℚ) (fun a b => a.2 ≤ b.2) :=
    ⟨fun a b => le_total a.2 b.2⟩
  haveI : IsTrans (Char × ℚ) (fun a b => a.2 ≤ b.2) :=
    ⟨fun _ _ _ h1 h2 => le_trans h1 h2⟩
  have hsorted : (stable_sort_pairs d).Pairwise
      (fun a b : Char × ℚ => a.2 ≤ b.2) :=
    List.sorted_insertionSort _ d
  have hamem : a ∈ stable_sort_pairs d := (List.mem_insertionSort _).mpr ha
  have hbmem : b ∈ stable_sort_pairs d := (List.mem_insertionSort _).mpr hb
  have hne : a ≠ b := fun he => absurd hab (by rw [he]; exact lt_irrefl b.2)
  have hnR : ¬ ((fun a b : Char × ℚ => a.2 ≤ b.2) b a) := not_le.mpr hab
  exact (pairwise_pair_sublist hsorted hamem hbmem hne hnR).map Prod.fst

/-- Witness for `measured_mode_stable` on the two-glyph map
`b ↦ 2, a ↦ 1`. -/
theorem measured_mode_stable_witness :
    build_shader_measured [('b', 2), ('a', 1)]
        = (stable_sort_pairs [('b', 2), ('a', 1)]).map Prod.fst
      ∧ List.Sublist ['a', 'b'] (build_shader_measured [('b', 2), ('a', 1)]) := by
  have h := measured_mode_stable [('b', 2), ('a', 1)] (by decide)
  exact ⟨h.1, h.2 ('a', 1) ('b', 2) (by decide) (by decide) (by norm_num)⟩

end ConvertImageToAscii
